import Mathlib

/-!
Verification of the documentation-macro migration scripts
(`apply_doc_params.py`, `apply_doc_type_params.py`, `apply_hm_signature.py`,
`migrate_hm_signature.py`) against their specification.

Buffers are modelled as `List Char`.  The Python `re` patterns used by the
scripts are deterministic once backtracking is analysed (each greedy
quantifier is followed by a literal that its character class cannot match),
so every pattern is embedded as a total recursive matcher that consumes a
prefix of the buffer.  `re.sub` is embedded as a left-to-right scan that
re-emits unmatched characters and never rescans replacement text.  Python
`\s` is modelled by `isPySpace`, `\w` by `isWordChar` (ASCII, which covers
every buffer the scripts are aimed at), and `str.splitlines` by splitting
at a newline character (the only line terminator the scripts produce or
match on).
-/

set_option maxRecDepth 1000000

namespace DocMacros

/-- Shorthand: the character list of a string literal. -/
def strT (s : String) : List Char := s.toList

/-- The apostrophe character (Rust lifetime marker). -/
def chApos : Char := Char.ofNat 39

/-- The characters matched by the regex class `[ \t]`. -/
def isLinWs (c : Char) : Bool := c = ' ' || c = '\t'

/-- The characters matched by Python regex `\s` / removed by `str.strip()`. -/
def isPySpace (c : Char) : Bool :=
  c = ' ' || c = '\t' || c = '\n' || c = '\r' || c = Char.ofNat 11 || c = Char.ofNat 12

/-- The characters matched by Python regex `\w` (ASCII model). -/
def isWordChar (c : Char) : Bool := c.isAlpha || c.isDigit || c = '_'

/-- Python `str.strip()`. -/
def pyStrip (s : List Char) : List Char :=
  ((s.dropWhile isPySpace).reverse.dropWhile isPySpace).reverse

/-- Match a literal at the start of the input; return the remainder. -/
def expectLit (lit s : List Char) : Option (List Char) :=
  if lit.isPrefixOf s then some (s.drop lit.length) else none

/-- Python `str.splitlines()` (newline terminators), auxiliary scanner. -/
def pySplitlinesGo (cur : List Char) : List Char → List (List Char)
  | [] => [cur.reverse]
  | c :: r =>
    if c = '\n' then
      cur.reverse :: (match r with | [] => [] | _ :: _ => pySplitlinesGo [] r)
    else pySplitlinesGo (c :: cur) r

/-- Python `str.splitlines()`: lines without terminators, trailing empty
piece after a final newline dropped, empty string gives no lines. -/
def pySplitlines : List Char → List (List Char)
  | [] => []
  | s => pySplitlinesGo [] s

/-- Python `str.splitlines(keepends=True)`, auxiliary scanner. -/
def pySplitKeepGo (cur : List Char) : List Char → List (List Char)
  | [] => [cur.reverse]
  | c :: r =>
    if c = '\n' then
      (c :: cur).reverse :: (match r with | [] => [] | _ :: _ => pySplitKeepGo [] r)
    else pySplitKeepGo (c :: cur) r

/-- Python `str.splitlines(keepends=True)` (newline terminators). -/
def pySplitKeep : List Char → List (List Char)
  | [] => []
  | s => pySplitKeepGo [] s

/-- Python substring containment (`pat in s`). -/
def containsSub (p : List Char) : List Char → Bool
  | [] => p.isPrefixOf []
  | s@(_ :: r) => p.isPrefixOf s || containsSub p r

/-- Number of positions of `s` at which `p` occurs as a substring. -/
def countOcc (p : List Char) : List Char → Nat
  | [] => if p.isPrefixOf [] then 1 else 0
  | s@(_ :: r) => (if p.isPrefixOf s then 1 else 0) + countOcc p r

/-! ## The generic-list splitter (`extract_generics`) -/

/-- Source embedding of the splitting loop of `extract_generics`
(`apply_doc_type_params.py` lines 10-26): track angle-bracket depth,
split on commas at depth zero, append each piece stripped; the final
piece is appended only when its stripped form is non-empty. -/
def egSplitGo (depth : Int) (cur : List Char) (acc : List (List Char)) :
    List Char → List (List Char)
  | [] => if (pyStrip cur.reverse).isEmpty then acc else acc ++ [pyStrip cur.reverse]
  | c :: r =>
    if c = '<' then egSplitGo (depth + 1) (c :: cur) acc r
    else if c = '>' then egSplitGo (depth - 1) (c :: cur) acc r
    else if c = ',' && depth = 0 then egSplitGo depth [] (acc ++ [pyStrip cur.reverse]) r
    else egSplitGo depth (c :: cur) acc r

/-- Source embedding of `re.sub(r'^const\s+', '', p)`: remove a leading
`const` keyword together with the following whitespace run. -/
def stripConstKw (p : List Char) : List Char :=
  match p with
  | 'c' :: 'o' :: 'n' :: 's' :: 't' :: r =>
    match r with
    | c :: _ => if isPySpace c then r.dropWhile isPySpace else p
    | [] => p
  | _ => p

/-- Source embedding of `re.split(r'[:\s=]', p)[0]`: the prefix of `p`
before the first colon, whitespace character or equals sign. -/
def egName (p : List Char) : List Char :=
  (stripConstKw p).takeWhile (fun c => !(c = ':' || c = '=' || isPySpace c))

/-- Source embedding of `extract_generics` (`apply_doc_type_params.py`
lines 4-34). -/
def extractGenerics (sigText : List Char) : List (List Char) :=
  let content := pyStrip sigText
  if content.head? = some '<' && content.getLast? = some '>' then
    (((egSplitGo 0 [] [] ((content.drop 1).dropLast)).map egName).filter
      (fun n => !n.isEmpty))
  else []

/-- Spec-side splitter (spec section 4.4, written from the spec words, to be
compared with `extractGenerics`): split the raw text into top-level items on
commas at angle-bracket nesting depth zero, keeping the raw pieces. -/
def splitTopGo (depth : Int) (cur : List Char) : List Char → List (List Char)
  | [] => [cur.reverse]
  | c :: r =>
    if c = ',' && depth = 0 then cur.reverse :: splitTopGo 0 [] r
    else
      splitTopGo (if c = '<' then depth + 1 else if c = '>' then depth - 1 else depth)
        (c :: cur) r

/-- Spec-side name list (spec section 4.4): split at depth zero, trim each
item, strip a leading const keyword, take the prefix before the first of
colon, whitespace or equals as the name, drop empty items, keep order. -/
def specGenericNames (inner : List Char) : List (List Char) :=
  (((splitTopGo 0 [] inner).map (fun p => egName (pyStrip p))).filter
    (fun n => !n.isEmpty))

/-! ## The block pattern

`(^|\n)([ \t]*)/// ### KEY[ \t]*\n (?:[ \t]*///[ \t]*\n)? ((?:ENTRY)+)` with
`ENTRY = [ \t]*///\s*\*\s*`NAME`:.*\n` (`NAME` is `[^`]+` for the Parameters
pattern and `\w+` for the Type Parameters pattern).  Each greedy quantifier
inside a line is followed by a literal outside its class, so matching is
deterministic; note that the `\s*` runs may cross newlines, exactly as
Python's do.  Since the replacement re-emits the `(^|\n)` prefix group
verbatim, a match attempt at a position holding a newline is output-
equivalent to an attempt at the following line start, so the scanner
attempts the body of the pattern at every line start. -/

/-- Match `[ \t]*KEY[ \t]*\n` at the start of the buffer; return the
captured indent group and the remainder. -/
def matchHeaderLine (headerLit s : List Char) : Option (List Char × List Char) :=
  let indent := s.takeWhile isLinWs
  match expectLit headerLit (s.drop indent.length) with
  | none => none
  | some s2 =>
    match expectLit ['\n'] (s2.dropWhile isLinWs) with
    | none => none
    | some s3 => some (indent, s3)

/-- Match the optional blank doc line `[ \t]*///[ \t]*\n`. -/
def matchBlankLine (s : List Char) : Option (List Char) :=
  match expectLit (strT "///") (s.dropWhile isLinWs) with
  | none => none
  | some s2 => expectLit ['\n'] (s2.dropWhile isLinWs)

/-- Match one bullet entry `[ \t]*///\s*\*\s*`NAME`:.*\n`; `wordName`
selects the `\w+` name class (Type Parameters) over `[^`]+` (Parameters).
Returns the remainder.  The `\s*` runs may consume newlines. -/
def matchEntry (wordName : Bool) (s : List Char) : Option (List Char) :=
  match expectLit (strT "///") (s.dropWhile isLinWs) with
  | none => none
  | some s2 =>
  match expectLit ['*'] (s2.dropWhile isPySpace) with
  | none => none
  | some s4 =>
  match expectLit ['`'] (s4.dropWhile isPySpace) with
  | none => none
  | some s6 =>
  let name := if wordName then s6.takeWhile isWordChar
              else s6.takeWhile (fun c => c ≠ '`')
  if name.isEmpty then none else
  match expectLit ['`'] (s6.drop name.length) with
  | none => none
  | some s7 =>
  match expectLit [':'] s7 with
  | none => none
  | some s8 =>
  expectLit ['\n'] (s8.drop (s8.takeWhile (fun c => c ≠ '\n')).length)

/-- Greedily consume further entries (fuel-bounded; each entry consumes at
least the three slashes, so `r.length + 1` fuel is never exhausted). -/
def matchEntriesAux (wordName : Bool) : Nat → List Char → List Char
  | 0, s => s
  | f + 1, s =>
    match matchEntry wordName s with
    | some r => matchEntriesAux wordName f r
    | none => s

/-- Match `(?:ENTRY)+`: one entry, then greedily as many as possible. -/
def matchEntries (wordName : Bool) (s : List Char) : Option (List Char) :=
  match matchEntry wordName s with
  | none => none
  | some r => some (matchEntriesAux wordName (r.length + 1) r)

/-- A successful block match: the captured indent (group 2), the text of the
entries group (group 3) and the remainder of the buffer after the match. -/
structure BlockMatch where
  indent : List Char
  entriesText : List Char
  rest : List Char

/-- Match the body of the block pattern at a line start: header line,
optional blank doc line (with backtracking: the blank line is kept only if
at least one entry follows it, as Python's optional group does), then one
or more entries. -/
def bodyAt (headerLit : List Char) (wordName : Bool) (s : List Char) :
    Option BlockMatch :=
  match matchHeaderLine headerLit s with
  | none => none
  | some (indent, r1) =>
    match matchBlankLine r1 with
    | some r2 =>
      match matchEntries wordName r2 with
      | some r3 => some ⟨indent, r2.take (r2.length - r3.length), r3⟩
      | none =>
        match matchEntries wordName r1 with
        | some r3 => some ⟨indent, r1.take (r1.length - r3.length), r3⟩
        | none => none
    | none =>
      match matchEntries wordName r1 with
      | some r3 => some ⟨indent, r1.take (r1.length - r3.length), r3⟩
      | none => none

/-! ## The `re.sub` scanner

`tryM s` attempts a match at the current position (a line start) and
returns the replacement text together with the remainder of the buffer
after the match; the replacement text of an unchanged block is the matched
text itself.  `endsLS` records whether every match of the pattern ends at
a line start (true for the two block patterns, whose matches end with a
newline; false for the Type Signature pattern, whose matches end after a
backtick).  Fuel-bounded: every step consumes at least one character, so
`s.length + 1` fuel is never exhausted. -/
def subScan (tryM : List Char → Option (List Char × List Char)) (endsLS : Bool) :
    Nat → List Char → Bool → List Char
  | 0, s, _ => s
  | f + 1, s, atLS =>
    match (if atLS then tryM s else none) with
    | some (rep, rest) => rep ++ subScan tryM endsLS f rest endsLS
    | none =>
      match s with
      | [] => []
      | c :: r => c :: subScan tryM endsLS f r (c = '\n')

/-- Does the pattern match anywhere in the buffer (same scan as `subScan`)? -/
def anyMatchScan (tryM : List Char → Option (List Char × List Char)) :
    Nat → List Char → Bool → Bool
  | 0, _, _ => false
  | f + 1, s, atLS =>
    (atLS && (tryM s).isSome) ||
      match s with
      | [] => false
      | c :: r => anyMatchScan tryM f r (c = '\n')

/-! ## The Parameters replacement (`apply_doc_params.py` lines 17-43) -/

/-- Source embedding of `desc.replace(CHR(34), BACKSLASH CHR(34))`:
escape each double quote in the description. -/
def escapeQuotes : List Char → List Char
  | [] => []
  | c :: r => if c = '"' then '\\' :: '"' :: escapeQuotes r else c :: escapeQuotes r

/-- Attempt the inner entry regex `///\s*\*\s*`NAME`:\s*(.*)` at the start
of a line; return the name and the raw description (the rest of the line
after the whitespace run).  Lines hold no newline, so the `\s*` runs stay
inside the line. -/
def parseEntryAt (wordName : Bool) (s : List Char) : Option (List Char × List Char) :=
  match expectLit (strT "///") s with
  | none => none
  | some s2 =>
  match expectLit ['*'] (s2.dropWhile isPySpace) with
  | none => none
  | some s4 =>
  match expectLit ['`'] (s4.dropWhile isPySpace) with
  | none => none
  | some s6 =>
  let name := if wordName then s6.takeWhile isWordChar
              else s6.takeWhile (fun c => c ≠ '`')
  if name.isEmpty then none else
  match expectLit ['`'] (s6.drop name.length) with
  | none => none
  | some s7 =>
  match expectLit [':'] s7 with
  | none => none
  | some s8 => some (name, s8.dropWhile isPySpace)

/-- `re.search` of the inner entry regex within a line: try every
position left to right. -/
def searchEntry (wordName : Bool) : List Char → Option (List Char × List Char)
  | [] => none
  | s@(_ :: r) =>
    match parseEntryAt wordName s with
    | some x => some x
    | none => searchEntry wordName r

/-- Source embedding of the argument loop of the Parameters replacement:
parse each line, skip entries named `self`, escape quotes in the stripped
description and wrap it in double quotes. -/
def docParamsArgs : List (List Char) → List (List Char)
  | [] => []
  | l :: rest =>
    match searchEntry false l with
    | none => docParamsArgs rest
    | some (name, desc0) =>
      if name = strT "self" then docParamsArgs rest
      else ('"' :: (escapeQuotes (pyStrip desc0) ++ ['"'])) :: docParamsArgs rest

/-- The parsed `(name, stripped description)` entries of a block, in source
order (used to state properties of the argument builders). -/
def parsedEntries (wordName : Bool) (lines : List (List Char)) :
    List (List Char × List Char) :=
  lines.filterMap (fun l => (searchEntry wordName l).map (fun p => (p.1, pyStrip p.2)))

/-- Render `ARGS_STR`: each argument on its own line at the block indent
plus one tab, separated by comma-newline. -/
def renderArgs (indent : List Char) (args : List (List Char)) : List Char :=
  List.intercalate (strT ",\n") (args.map (fun a => indent ++ '\t' :: a))

/-- Source embedding of the Parameters `replacement` function.  The
`(^|\n)` prefix group is re-emitted by the scanner, so it is omitted here.
If the argument list is empty the matched text is returned unchanged. -/
def paramsReplacement (indent entriesText matchedText : List Char) : List Char :=
  let args := docParamsArgs (pySplitlines entriesText)
  if args.isEmpty then matchedText
  else
    indent ++ strT "/// ### Parameters\n" ++ indent ++ strT "///\n" ++
      indent ++ strT "#[doc_params(\n" ++ renderArgs indent args ++
      '\n' :: (indent ++ strT ")]")

/-- The match attempt of the Parameters transform at a line start. -/
def tryMatchParams (s : List Char) : Option (List Char × List Char) :=
  (bodyAt (strT "/// ### Parameters") false s).map (fun bm =>
    (paramsReplacement bm.indent bm.entriesText (s.take (s.length - bm.rest.length)),
     bm.rest))

/-- Source embedding of `pattern.sub(replacement, content)` of
`apply_doc_params.py`. -/
def applyDocParams (s : List Char) : List Char :=
  subScan tryMatchParams true (s.length + 1) s true

/-! ## Lookahead classification (`apply_doc_type_params.py` lines 64-112) -/

/-- A line skipped by the next-item scan: blank, doc comment, attribute or
plain comment (checked on the stripped line, in source order). -/
def isSkippableLine (l : List Char) : Bool :=
  let st := pyStrip l
  st.isEmpty || (strT "///").isPrefixOf st || (strT "#[").isPrefixOf st ||
    (strT "//").isPrefixOf st

/-- The first non-skippable line of the lookahead, stripped (empty when
none exists, matching the initialisation of `next_item_line`). -/
def nextItemLine : List (List Char) → List Char
  | [] => []
  | l :: r => if isSkippableLine l then nextItemLine r else pyStrip l

/-- `re.search(r'\bfn\b', s)`, returning the remainder after the matched
`fn` word: first position where `fn` occurs with a non-word character (or
an edge) on both sides. -/
def searchFnWordRemAux (prev : Option Char) : List Char → Option (List Char)
  | 'f' :: 'n' :: rest =>
    if (match prev with | none => true | some p => !(isWordChar p)) &&
       (match rest with | [] => true | c2 :: _ => !(isWordChar c2)) then
      some rest
    else searchFnWordRemAux (some 'f') ('n' :: rest)
  | c :: r => searchFnWordRemAux (some c) r
  | [] => none

/-- `re.search(r'\bfn\b', s)` as a Boolean. -/
def hasFnWord (s : List Char) : Bool := (searchFnWordRemAux none s).isSome

/-- Source embedding of `re.sub(r'//.*', '', s)`: delete from each `//` to
the end of its line. -/
def stripLC : Bool → List Char → List Char
  | _, [] => []
  | true, c :: r =>
    if c = '\n' then c :: stripLC false r else stripLC true r
  | false, '/' :: '/' :: r2 => stripLC true r2
  | false, c :: r => c :: stripLC false r

/-- Find the first `*/` and return the remainder after it. -/
def findCloseBC : List Char → Option (List Char)
  | '*' :: '/' :: r => some r
  | _ :: r => findCloseBC r
  | [] => none

/-- Source embedding of `re.sub(r'/\*.*?\*/', '', s, flags=re.DOTALL)`
(fuel-bounded; each step consumes at least one character): delete each
lazily-closed block comment, keep an unclosed `/*`. -/
def stripBCF : Nat → List Char → List Char
  | 0, s => s
  | _ + 1, [] => []
  | f + 1, '/' :: '*' :: r =>
    (match findCloseBC r with
     | some r2 => stripBCF f r2
     | none => '/' :: stripBCF f ('*' :: r))
  | f + 1, c :: r => c :: stripBCF f r

/-- Comment stripping of the lookahead window: line comments first, then
block comments (the order used by the source). -/
def stripComments (s : List Char) : List Char :=
  let s2 := stripLC false s
  stripBCF (s2.length + 1) s2

/-- `re.search(r'\bfn\s+(\w+)', s)`: attempt at one position (`prev` is the
character before the position, for the word boundary). -/
def fnNameAt (prev : Option Char) (s : List Char) : Option (List Char × List Char) :=
  match s with
  | 'f' :: 'n' :: rest =>
    if (match prev with | none => true | some p => !(isWordChar p)) then
      let ws := rest.takeWhile isPySpace
      if ws.isEmpty then none
      else
        let r2 := rest.drop ws.length
        let name := r2.takeWhile isWordChar
        if name.isEmpty then none else some (name, r2.drop name.length)
    else none
  | _ => none

/-- `re.search(r'\bfn\s+(\w+)', s)`: leftmost match; returns the captured
name and the remainder after it (`match.end()`). -/
def searchFnNameAux (prev : Option Char) : List Char → Option (List Char × List Char)
  | [] => none
  | c :: r =>
    match fnNameAt prev (c :: r) with
    | some x => some x
    | none => searchFnNameAux (some c) r

/-- Leftmost `\bfn\s+(\w+)` search from the start of the buffer. -/
def searchFnName (s : List Char) : Option (List Char × List Char) :=
  searchFnNameAux none s

/-- Source embedding of the generics-span loop (`apply_doc_type_params.py`
lines 98-108): walk characters updating the angle-bracket depth, appending
each character, and stop as soon as the depth is zero after a character
(so a leading whitespace character already stops the walk). -/
def genericsSpanGo (depth : Int) (acc : List Char) : List Char → List Char
  | [] => acc.reverse
  | c :: r =>
    let d := if c = '<' then depth + 1 else if c = '>' then depth - 1 else depth
    if d = 0 then (c :: acc).reverse else genericsSpanGo d (c :: acc) r

/-- The `generics_text` accumulated by the source loop. -/
def genericsSpan (s : List Char) : List Char := genericsSpanGo 0 [] s

/-! ## The correlator (`apply_doc_type_params.py` lines 114-138) -/

/-- Lookup in the Python dict `doc_params`: assignments in line order with
later duplicates overwriting, so the value is the one of the last entry
with the given name. -/
def lastAssoc (k : List Char) : List (List Char × List Char) → Option (List Char)
  | [] => none
  | (n, d) :: r =>
    match lastAssoc k r with
    | some v => some v
    | none => if n = k then some d else none

/-- `g_name.lstrip(APOS)`: drop all leading lifetime apostrophes. -/
def lstripApos (s : List Char) : List Char := s.dropWhile (fun c => c = chApos)

/-- A plain quoted payload `"desc"`. -/
def quoteArg (d : List Char) : List Char := '"' :: (d ++ ['"'])

/-- A parenthesised payload `("name", "desc")`. -/
def pairArg (n d : List Char) : List Char :=
  '(' :: '"' :: (n ++ '"' :: ',' :: ' ' :: '"' :: (d ++ ['"', ')']))

/-- Source embedding of the correlation loop: `ordered` is
`ordered_doc_params` (also the insertion sequence of the dict `doc_params`)
and the `Nat` argument is `doc_ptr`. -/
def finalArgsGo (ordered : List (List Char × List Char)) :
    List (List Char) → Nat → List (List Char)
  | [], _ => []
  | g :: gs, ptr =>
    let cleanG := lstripApos g
    let cur := ordered.get? ptr
    let hit := match cur with
      | some (dn, _) => dn = g || dn = cleanG
      | none => false
    if hit then
      (match cur with
       | some (_, dd) => quoteArg dd
       | none => quoteArg []) :: finalArgsGo ordered gs (ptr + 1)
    else
      match lastAssoc g ordered with
      | some d => quoteArg d :: finalArgsGo ordered gs ptr
      | none =>
        match lastAssoc cleanG ordered with
        | some d => quoteArg d :: finalArgsGo ordered gs ptr
        | none =>
          if g.head? ≠ some chApos then
            match cur with
            | some (dn, dd) => pairArg dn dd :: finalArgsGo ordered gs (ptr + 1)
            | none => quoteArg (strT "Undocumented") :: finalArgsGo ordered gs ptr
          else quoteArg (strT "Undocumented") :: finalArgsGo ordered gs ptr

/-- The rendered argument list of the Type Parameters correlator: one
argument per generic name. -/
def mapDocToGenerics (gs : List (List Char))
    (ordered : List (List Char × List Char)) : List (List Char) :=
  finalArgsGo ordered gs 0

/-- The rendered-argument data model of the spec (section 3): a plain
quoted payload, a parenthesised pair, or the undocumented marker. -/
inductive RenderedArgument
  | quoted : List Char → RenderedArgument
  | pair : List Char → List Char → RenderedArgument
  | undocumented : RenderedArgument
deriving DecidableEq

/-- Text of a rendered argument. -/
def renderArgText : RenderedArgument → List Char
  | .quoted d => quoteArg d
  | .pair n d => pairArg n d
  | .undocumented => quoteArg (strT "Undocumented")

/-- Spec-side correlator step (spec section 4.5, written from the spec
words): given the cursor, produce the rendered argument for one generic
name and the new cursor.  Branch order: sequential cursor hit (exact name
or name equal to the generic stripped of its lifetime marker, cursor
advanced); by-name lookup among the entries (cursor kept); positional
fallback for a non-lifetime name while unconsumed entries remain (cursor
advanced); undocumented. -/
def correlateStep (entries : List (List Char × List Char)) (cursor : Nat)
    (g : List Char) : RenderedArgument × Nat :=
  match entries.get? cursor with
  | some (n, d) =>
    if n = g || n = lstripApos g then (.quoted d, cursor + 1)
    else
      match lastAssoc g entries with
      | some d2 => (.quoted d2, cursor)
      | none =>
        match lastAssoc (lstripApos g) entries with
        | some d2 => (.quoted d2, cursor)
        | none =>
          if g.head? ≠ some chApos then (.pair n d, cursor + 1)
          else (.undocumented, cursor)
  | none =>
    match lastAssoc g entries with
    | some d2 => (.quoted d2, cursor)
    | none =>
      match lastAssoc (lstripApos g) entries with
      | some d2 => (.quoted d2, cursor)
      | none => (.undocumented, cursor)

/-- Spec-side correlator: fold the step over the generic names with a
single forward cursor. -/
def correlateSpec (entries : List (List Char × List Char)) :
    List (List Char) → Nat → List RenderedArgument
  | [], _ => []
  | g :: gs, cursor =>
    let st := correlateStep entries cursor g
    st.1 :: correlateSpec entries gs st.2

/-! ## The Type Parameters replacement (`apply_doc_type_params.py` 48-141) -/

/-- The `generic_names` computation: extraction is attempted only when the
first character after the whitespace run following the function name is an
opening angle bracket (`re.search(r'^\s*<', after_fn_name)`). -/
def genericNamesFrom (afterFn : List Char) : List (List Char) :=
  if (afterFn.dropWhile isPySpace).head? = some '<' then
    extractGenerics (genericsSpan afterFn)
  else []

/-- Source embedding of the Type Parameters `replacement` function.  The
`(^|\n)` prefix group is re-emitted by the scanner, so it is omitted here;
`rest` is the buffer from `match.end()` on, so `rest.take 5000` is the
lookahead window. -/
def typeParamsReplacement (indent entriesText matchedText rest : List Char) :
    List Char :=
  if !hasFnWord (nextItemLine (pySplitlines (rest.take 5000))) then matchedText
  else
    match searchFnName (stripComments (rest.take 5000)) with
    | none => matchedText
    | some (_, afterFn) =>
      if (genericNamesFrom afterFn).isEmpty then matchedText
      else
        indent ++ strT "/// ### Type Parameters\n" ++ indent ++ strT "///\n" ++
          indent ++ strT "#[doc_type_params(\n" ++
          renderArgs indent (mapDocToGenerics (genericNamesFrom afterFn)
            (parsedEntries true (pySplitlines entriesText))) ++
          '\n' :: (indent ++ strT ")]")

/-- The match attempt of the Type Parameters transform at a line start. -/
def tryMatchTypeParams (s : List Char) : Option (List Char × List Char) :=
  (bodyAt (strT "/// ### Type Parameters") true s).map (fun bm =>
    (typeParamsReplacement bm.indent bm.entriesText
      (s.take (s.length - bm.rest.length)) bm.rest,
     bm.rest))

/-- Source embedding of `pattern.sub(replacement, content)` of
`apply_doc_type_params.py`. -/
def applyDocTypeParams (s : List Char) : List Char :=
  subScan tryMatchTypeParams true (s.length + 1) s true

/-! ## The Type Signature transform (`apply_hm_signature.py`)

Pattern: `(^|\n)([ \t]*)/// ### Type Signature[ \t]*\n [ \t]*///[ \t]*\n
[ \t]*///\s*`forall ([^`\n]+)``, compiled without `re.MULTILINE`; the `^`
alternative then only applies at position zero, but since every other
match consumes a `\n` prefix that the replacement re-emits, attempting the
body at every line start is output-equivalent, exactly as for the other
two patterns.  A match ends just after the closing backtick (mid-line). -/

/-- Match the Type Signature pattern body at a line start; return the
indent, the `forall` payload (group 3) and the remainder. -/
def bodyAtHm (s : List Char) : Option (List Char × List Char × List Char) :=
  match matchHeaderLine (strT "/// ### Type Signature") s with
  | none => none
  | some (indent, r1) =>
    match matchBlankLine r1 with
    | none => none
    | some r2 =>
      match expectLit (strT "///") (r2.dropWhile isLinWs) with
      | none => none
      | some r4 =>
        match expectLit ['`'] (r4.dropWhile isPySpace) with
        | none => none
        | some r6 =>
          match expectLit (strT "forall ") r6 with
          | none => none
          | some r7 =>
            let sig := r7.takeWhile (fun c => !(c = '`' || c = '\n'))
            if sig.isEmpty then none
            else
              match expectLit ['`'] (r7.drop sig.length) with
              | none => none
              | some r8 => some (indent, sig, r8)

/-- One attempt of the trait regex `.*?\.\s*(?:[(]\s*)?(\w+).*?=>` after a
dot: skip whitespace, optionally skip one opening parenthesis and further
whitespace, take a non-empty word run, and require a `=>` later in the
text. -/
def traitAtDot (s : List Char) : Option (List Char) :=
  let s1 := s.dropWhile isPySpace
  let s2 := match s1 with
    | '(' :: r => r.dropWhile isPySpace
    | _ => s1
  let name := s2.takeWhile isWordChar
  if name.isEmpty then none
  else if containsSub (strT "=>") (s2.drop name.length) then some name else none

/-- `re.search` of the trait regex: the lazy leading `.*?` makes the match
use the leftmost dot at which the attempt succeeds. -/
def traitSearch : List Char → Option (List Char)
  | [] => none
  | '.' :: r =>
    (match traitAtDot r with
     | some n => some n
     | none => traitSearch r)
  | _ :: r => traitSearch r

/-- Result of the body/forward-declaration scan after `fn`. -/
inductive FnScan
  | foundBody
  | foundDecl
  | neither
deriving DecidableEq

/-- Source embedding of the character loop of `apply_hm_signature.py`
lines 37-60: a single depth counter over parentheses, square brackets and
braces; an opening brace at depth zero means a body, a semicolon at depth
zero means a bodiless declaration. -/
def bodyScanGo (level : Int) : List Char → FnScan
  | [] => .neither
  | c :: r =>
    if c = '\x7b' then (if level = 0 then .foundBody else bodyScanGo (level + 1) r)
    else if c = '\x7d' then bodyScanGo (level - 1) r
    else if c = '(' then bodyScanGo (level + 1) r
    else if c = ')' then bodyScanGo (level - 1) r
    else if c = '[' then bodyScanGo (level + 1) r
    else if c = ']' then bodyScanGo (level - 1) r
    else if c = ';' then (if level = 0 then .foundDecl else bodyScanGo level r)
    else bodyScanGo level r

/-- Source embedding of the Type Signature `replacement` function. -/
def hmReplacement (indent sig matchedText rest : List Char) : List Char :=
  match traitSearch sig with
  | none => matchedText
  | some traitName =>
    match searchFnWordRemAux none (stripComments (rest.take 5000)) with
    | none => matchedText
    | some afterFn =>
      match bodyScanGo 0 afterFn with
      | .foundBody =>
        indent ++ strT "/// ### Type Signature\n" ++ indent ++ strT "///\n" ++
          indent ++ strT "#[hm_signature(" ++ traitName ++ strT ")]"
      | _ => matchedText

/-- The match attempt of the Type Signature transform at a line start. -/
def tryMatchHmSig (s : List Char) : Option (List Char × List Char) :=
  (bodyAtHm s).map (fun bm =>
    (hmReplacement bm.1 bm.2.1 (s.take (s.length - bm.2.2.length)) bm.2.2,
     bm.2.2))

/-- Source embedding of `pattern.sub(replacement, content)` of
`apply_hm_signature.py` (matches end mid-line, hence `endsLS = false`). -/
def applyHmSignature (s : List Char) : List Char :=
  subScan tryMatchHmSig false (s.length + 1) s true

/-! ## The attribute migration (`migrate_hm_signature.py`) -/

/-- The literal head of the migration pattern `#\[hm_signature\([^)]*\)\]`. -/
def hmLit : List Char := strT "#[hm_signature("

/-- The replacement text `#[hm_signature]`. -/
def hmRepl : List Char := strT "#[hm_signature]"

/-- Complete a migration match after the opening parenthesis: `[^)]*\)\]`
backtracks to nothing, so the match succeeds exactly when the first `)` is
immediately followed by `]`; returns the remainder after `)]`. -/
def tryCloseHm : List Char → Option (List Char)
  | [] => none
  | ')' :: r =>
    (match r with
     | ']' :: r2 => some r2
     | _ => none)
  | _ :: r => tryCloseHm r

/-- Attempt the migration pattern at the current position. -/
def headMatchHm (s : List Char) : Option (List Char) :=
  if hmLit.isPrefixOf s then tryCloseHm (s.drop hmLit.length) else none

/-- Source embedding of `pattern.sub('#[hm_signature]', content)` of
`migrate_hm_signature.py` (fuel-bounded scan; each step consumes at least
one character). -/
def migrateAux : Nat → List Char → List Char
  | 0, s => s
  | f + 1, s =>
    match headMatchHm s with
    | some r => hmRepl ++ migrateAux f r
    | none =>
      match s with
      | [] => []
      | c :: r => c :: migrateAux f r

/-- The migration pass over one buffer. -/
def migrateHmSig (s : List Char) : List Char := migrateAux (s.length + 1) s

/-- No position of the buffer starts a migration match. -/
def noOccHm : List Char → Bool
  | [] => true
  | s@(_ :: r) => !(headMatchHm s).isSome && noOccHm r

/-! ## Import insertion and the per-file drivers -/

/-- A preamble line of the import-insertion loop: blank, inner doc comment
`//!` or `#!` line (checked on the stripped line). -/
def isPreambleLine (l : List Char) : Bool :=
  let st := pyStrip l
  st.isEmpty || (strT "//!").isPrefixOf st || (strT "#!").isPrefixOf st

/-- Count of leading preamble lines. -/
def skipPreamble : List (List Char) → Nat
  | [] => 0
  | l :: r => if isPreambleLine l then skipPreamble r + 1 else 0

/-- Source embedding of the `insert_idx` computation: skip a raw shebang on
line zero, then skip stripped `//!` / `#!` / blank lines. -/
def importInsertIdx (lines : List (List Char)) : Nat :=
  match lines with
  | [] => 0
  | l0 :: rest =>
    if (strT "#!").isPrefixOf l0 then 1 + skipPreamble rest
    else skipPreamble (l0 :: rest)

/-- Source embedding of the import-insertion step shared by the three
`process_file` tails: if the import line is not contained in the buffer,
insert it (with a newline) at the computed line index. -/
def ensureImport (imp s : List Char) : List Char :=
  if containsSub imp s then s
  else
    let lines := pySplitKeep s
    let k := importInsertIdx lines
    (lines.take k).flatten ++ (imp ++ ['\n']) ++ (lines.drop k).flatten

/-- The import line of `apply_doc_params.py`. -/
def impParams : List Char := strT "use fp_macros::doc_params;"

/-- The import line of `apply_doc_type_params.py`. -/
def impTypeParams : List Char := strT "use fp_macros::doc_type_params;"

/-- The import line of `apply_hm_signature.py`. -/
def impHmSig : List Char := strT "use fp_macros::hm_signature;"

/-- `process_file` of `apply_doc_params.py` on one buffer: the new buffer
and the changed flag (the file is rewritten exactly when the flag holds). -/
def processDocParams (s : List Char) : List Char × Bool :=
  let n := applyDocParams s
  if n = s then (s, false) else (ensureImport impParams n, true)

/-- `process_file` of `apply_doc_type_params.py` on one buffer. -/
def processDocTypeParams (s : List Char) : List Char × Bool :=
  let n := applyDocTypeParams s
  if n = s then (s, false) else (ensureImport impTypeParams n, true)

/-- `process_file` of `apply_hm_signature.py` on one buffer. -/
def processHmSignature (s : List Char) : List Char × Bool :=
  let n := applyHmSignature s
  if n = s then (s, false) else (ensureImport impHmSig n, true)

/-- `process_file` of `migrate_hm_signature.py` on one buffer. -/
def processMigrate (s : List Char) : List Char × Bool :=
  let n := migrateHmSig s
  if n = s then (s, false) else (n, true)

/-! ## Block-presence predicates (used to state conservation) -/

/-- The buffer contains a block matching the Parameters pattern. -/
def hasBlockParams (s : List Char) : Bool :=
  anyMatchScan tryMatchParams (s.length + 1) s true

/-- The buffer contains a block matching the Type Parameters pattern. -/
def hasBlockTypeParams (s : List Char) : Bool :=
  anyMatchScan tryMatchTypeParams (s.length + 1) s true

/-- The buffer contains a block matching the Type Signature pattern. -/
def hasBlockHmSig (s : List Char) : Bool :=
  anyMatchScan tryMatchHmSig (s.length + 1) s true

/-- `p` has no border: no proper non-empty suffix of `p` is also a prefix
of `p`.  (Holds for each of the three import lines; it makes substring
occurrence counting across an insertion exact.) -/
def BorderFree (p : List Char) : Prop :=
  ∀ j < p.length, 0 < j → p.take (p.length - j) ≠ p.drop j

/-- The inserted import line sits at the preamble boundary: the buffer
lines split as a preamble prefix, the fresh import line, and a remainder
whose first line (if any) is not a preamble line. -/
def InsertedAtPreamble (imp before after : List Char) : Prop :=
  ∃ pre post, pySplitKeep before = pre ++ post ∧
    after = pre.flatten ++ (imp ++ ['\n']) ++ post.flatten ∧
    (∀ l ∈ pre, isPreambleLine l = true) ∧
    (∀ l, post.head? = some l → isPreambleLine l = false)

/-! ## Concrete buffers used by counterexamples and witnesses -/

/-- C1 failing input: two adjacent Type Parameters blocks; the scan of the
first block stops at the stray continuation line `* BACKTICK B ...` (which
the entry grammar absorbs into the second block because `\s*` crosses the
newline), so the first block is not rewritten on the first run, while the
second block is; on the second run the first block's scanner reads the
quoted payload of the migrated second block as a declaration. -/
def c1Input : List Char := strT
  "/// ### Type Parameters\n/// * `T`: doci\n/// ### Type Parameters\n/// * `A`: fn g<Q>(y: Q) \x7b\x7d\n///\n* `B`: zz\nfn real<A,B>(y: A) \x7b\x7d\n"

/-- The first transform of `c1Input` (checked against the source). -/
def c1Once : List Char := strT
  "/// ### Type Parameters\n/// * `T`: doci\n/// ### Type Parameters\n///\n#[doc_type_params(\n\t\"fn g<Q>(y: Q) \x7b\x7d\",\n\t\"Undocumented\"\n)]fn real<A,B>(y: A) \x7b\x7d\n"

/-- The second transform of `c1Input`: the first block is now rewritten
too, so the transform is not idempotent on `c1Input`. -/
def c1Twice : List Char := strT
  "/// ### Type Parameters\n///\n#[doc_type_params(\n\t(\"T\", \"doci\")\n)]/// ### Type Parameters\n///\n#[doc_type_params(\n\t\"fn g<Q>(y: Q) \x7b\x7d\",\n\t\"Undocumented\"\n)]fn real<A,B>(y: A) \x7b\x7d\n"

/-- A description containing a literal double quote. -/
def descWithQuote : List Char := strT "a \"b\" c"

/-- C4 counterexample input: the import line occurs twice and one
Parameters block is rewritten; the result still holds two copies. -/
def c4Cex : List Char := strT
  "use fp_macros::doc_params;\nuse fp_macros::doc_params;\n/// ### Parameters\n/// * `x`: d\nfn f() \x7b\x7d\n"

/-- C4 witness input (Parameters): one block, import absent. -/
def c4WitP : List Char := strT
  "//! module docs\n\n/// ### Parameters\n/// * `x`: d\nfn f() \x7b\x7d\n"

/-- C4 witness input (Type Parameters): one block, import absent. -/
def c4WitT : List Char := strT
  "/// ### Type Parameters\n/// * `T`: d\nfn f<T>(x: T) \x7b\x7d\n"

/-- C4 witness input (Type Signature): one block, import absent. -/
def c4WitH : List Char := strT
  "/// ### Type Signature\n///\n/// `forall a. Monad m => m a`\nfn foo() \x7b\x7d\n"

/-- C5 witness input: no doc block of any kind. -/
def c5Wit : List Char := strT "fn main() \x7b\x7d\n"

/-- C10 witness inputs. -/
def c10WitA : List Char := strT "#[hm_signature(Functor)] fn x() \x7b\x7d\n"

/-- C10 witness input with no occurrence of the migration pattern. -/
def c10WitB : List Char := strT "fn main() \x7b\x7d\n"

/-! # Theorems -/

theorem egName_nil : egName [] = [] := rfl

theorem egSplit_names_eq (s : List Char) :
    ∀ (depth : Int) (cur : List Char) (acc : List (List Char)),
    ((egSplitGo depth cur acc s).map egName).filter (fun n => !n.isEmpty) =
      ((acc.map egName).filter (fun n => !n.isEmpty)) ++
        ((splitTopGo depth cur s).map (fun p => egName (pyStrip p))).filter
          (fun n => !n.isEmpty) := by
  induction s with
  | nil =>
    intro depth cur acc
    simp only [egSplitGo, splitTopGo]
    cases hp : pyStrip cur.reverse with
    | nil =>
      simp [hp, egName_nil]
    | cons a l =>
      simp [hp, List.map_append, List.filter_append]
  | cons c r ih =>
    intro depth cur acc
    simp only [egSplitGo, splitTopGo]
    by_cases h1 : c = '<'
    · subst h1
      have hd : (decide (('<' : Char) = ',')) = false := by decide
      rw [if_pos rfl, if_neg (by simp [hd])]
      rw [if_pos rfl]
      exact ih (depth + 1) ('<' :: cur) acc
    · by_cases h2 : c = '>'
      · subst h2
        have hd : (decide (('>' : Char) = ',')) = false := by decide
        rw [if_neg h1, if_pos rfl, if_neg (by simp [hd])]
        rw [if_neg h1, if_pos rfl]
        exact ih (depth - 1) ('>' :: cur) acc
      · by_cases h3 : (c = ',' && depth = 0) = true
        · have hdep : depth = 0 := by
            have := (Bool.and_eq_true _ _).mp h3
            exact of_decide_eq_true this.2
          subst hdep
          rw [if_neg h1, if_neg h2, if_pos h3, if_pos h3]
          rw [ih 0 [] (acc ++ [pyStrip cur.reverse])]
          rw [List.map_append, List.filter_append, List.append_assoc]
          rw [← List.filter_append]
          rfl
        · have h3f : (c = ',' && depth = 0) = false := eq_false_of_ne_true h3
          rw [if_neg h1, if_neg h2, if_neg (by simp [h3f]), if_neg (by simp [h3f])]
          rw [if_neg h1, if_neg h2]
          exact ih depth (c :: cur) acc

theorem pyStrip_angle (inner : List Char) :
    pyStrip ('<' :: (inner ++ ['>'])) = '<' :: (inner ++ ['>']) := by
  have h1 : isPySpace '<' = false := by decide
  have h2 : isPySpace '>' = false := by decide
  unfold pyStrip
  rw [List.dropWhile_cons_of_neg (by simp [h1])]
  rw [show ('<' :: (inner ++ ['>'])).reverse = '>' :: (inner.reverse ++ ['<']) by
    simp]
  rw [List.dropWhile_cons_of_neg (by simp [h2])]
  simp

/-- C7: for every raw generic-list text between outermost angle brackets,
the source splitter `extractGenerics` computes exactly the spec-side
pipeline: split into top-level items on commas at angle-bracket nesting
depth zero, trim each item, strip a leading const keyword, take the prefix
before the first of colon, whitespace or equals as the introduced name,
drop empty items, preserve source order. -/
theorem c7_generic_splitter (inner : List Char) :
    extractGenerics ('<' :: (inner ++ ['>'])) = specGenericNames inner := by
  have hlast : ('<' :: (inner ++ ['>'])).getLast? = some '>' := by
    rw [show ('<' :: (inner ++ ['>'])) = ('<' :: inner) ++ ['>'] from by simp]
    exact List.getLast?_concat _
  have hsplit := egSplit_names_eq inner 0 [] []
  unfold extractGenerics specGenericNames
  rw [pyStrip_angle]
  simp only [hlast, List.head?_cons]
  rw [if_pos (by simp)]
  have hdrop : (('<' :: (inner ++ ['>'])).drop 1).dropLast = inner := by
    simp
  rw [hdrop]
  simpa using hsplit

theorem finalArgsGo_eq (ordered : List (List Char × List Char))
    (gs : List (List Char)) :
    ∀ ptr, finalArgsGo ordered gs ptr =
        (correlateSpec ordered gs ptr).map renderArgText ∧
      (finalArgsGo ordered gs ptr).length = gs.length := by
  induction gs with
  | nil => intro ptr; exact ⟨rfl, rfl⟩
  | cons g gs ih =>
    intro ptr
    simp only [finalArgsGo, correlateSpec, correlateStep]
    cases hcur : ordered.get? ptr with
    | some nd =>
      obtain ⟨n, d⟩ := nd
      by_cases hhit : (n = g || n = lstripApos g) = true
      · simp only [hhit, if_true, List.map_cons, renderArgText]
        exact ⟨by rw [(ih (ptr + 1)).1], by simp [(ih (ptr + 1)).2]⟩
      · simp only [eq_false_of_ne_true hhit, Bool.false_eq_true, if_false]
        cases hg : lastAssoc g ordered with
        | some d2 =>
          simp only [List.map_cons, renderArgText]
          exact ⟨by rw [(ih ptr).1], by simp [(ih ptr).2]⟩
        | none =>
          cases hcg : lastAssoc (lstripApos g) ordered with
          | some d2 =>
            simp only [List.map_cons, renderArgText]
            exact ⟨by rw [(ih ptr).1], by simp [(ih ptr).2]⟩
          | none =>
            by_cases hap : g.head? ≠ some chApos
            · simp only [if_pos hap, List.map_cons, renderArgText]
              exact ⟨by rw [(ih (ptr + 1)).1], by simp [(ih (ptr + 1)).2]⟩
            · simp only [if_neg hap, List.map_cons, renderArgText]
              exact ⟨by rw [(ih ptr).1], by simp [(ih ptr).2]⟩
    | none =>
      simp only [Bool.false_eq_true, if_false]
      cases hg : lastAssoc g ordered with
      | some d2 =>
        simp only [List.map_cons, renderArgText]
        exact ⟨by rw [(ih ptr).1], by simp [(ih ptr).2]⟩
      | none =>
        cases hcg : lastAssoc (lstripApos g) ordered with
        | some d2 =>
          simp only [List.map_cons, renderArgText]
          exact ⟨by rw [(ih ptr).1], by simp [(ih ptr).2]⟩
        | none =>
          by_cases hap : g.head? ≠ some chApos
          · simp only [if_pos hap, List.map_cons, renderArgText]
            exact ⟨by rw [(ih ptr).1], by simp [(ih ptr).2]⟩
          · simp only [if_neg hap, List.map_cons, renderArgText]
            exact ⟨by rw [(ih ptr).1], by simp [(ih ptr).2]⟩

/-- C2: for every generic-name list and parsed entry list, the rendered
argument list of the Type Parameters correlator has exactly one entry per
generic name (the length equality), in generic-list order, and each entry
is chosen by the single-forward-cursor algorithm `correlateSpec` written
from the spec: sequential cursor hit on exact or lifetime-stripped name
(quoted, cursor advanced, consumed entries never re-visited by the
cursor); otherwise by-name lookup among the entries (quoted, cursor
kept); otherwise the positional fallback pair for a non-lifetime name
while an unconsumed entry remains (cursor advanced); otherwise the
literal Undocumented. -/
theorem c2_correlator (gs : List (List Char))
    (ordered : List (List Char × List Char)) :
    mapDocToGenerics gs ordered = (correlateSpec ordered gs 0).map renderArgText ∧
      (mapDocToGenerics gs ordered).length = gs.length :=
  finalArgsGo_eq ordered gs 0

theorem parsedEntries_cons_none (w : Bool) (l : List Char)
    (rest : List (List Char)) (h : searchEntry w l = none) :
    parsedEntries w (l :: rest) = parsedEntries w rest := by
  simp [parsedEntries, List.filterMap_cons, h]

theorem parsedEntries_cons_some (w : Bool) (l : List Char)
    (rest : List (List Char)) (n d0 : List Char)
    (h : searchEntry w l = some (n, d0)) :
    parsedEntries w (l :: rest) = (n, pyStrip d0) :: parsedEntries w rest := by
  simp [parsedEntries, List.filterMap_cons, h]

theorem docParamsArgs_cons_none (l : List Char) (rest : List (List Char))
    (h : searchEntry false l = none) :
    docParamsArgs (l :: rest) = docParamsArgs rest := by
  simp only [docParamsArgs, h]

theorem docParamsArgs_cons_some (l : List Char) (rest : List (List Char))
    (n d0 : List Char) (h : searchEntry false l = some (n, d0)) :
    docParamsArgs (l :: rest) =
      if n = strT "self" then docParamsArgs rest
      else quoteArg (escapeQuotes (pyStrip d0)) :: docParamsArgs rest := by
  simp only [docParamsArgs, h, quoteArg]

theorem docParamsArgs_eq (lines : List (List Char)) :
    docParamsArgs lines =
      ((parsedEntries false lines).filter (fun e => e.1 != strT "self")).map
        (fun e => quoteArg (escapeQuotes e.2)) := by
  induction lines with
  | nil => rfl
  | cons l rest ih =>
    cases hs : searchEntry false l with
    | none =>
      rw [docParamsArgs_cons_none l rest hs, parsedEntries_cons_none false l rest hs, ih]
    | some p =>
      obtain ⟨n, d0⟩ := p
      rw [docParamsArgs_cons_some l rest n d0 hs,
        parsedEntries_cons_some false l rest n d0 hs, List.filter_cons]
      by_cases hn : n = strT "self"
      · rw [if_pos hn, if_neg (by simp [hn]), ih]
      · rw [if_neg hn, if_pos (by simp [hn]), List.map_cons, ih]

/-- C6: the rendered Parameters argument list is exactly the quoted
escaped descriptions of the parsed entries whose name is not `self`, in
source entry order (no declaration is consulted); and a block whose
argument list is empty is left unmodified. -/
theorem c6_parameters_args :
    (∀ lines, docParamsArgs lines =
      ((parsedEntries false lines).filter (fun e => e.1 != strT "self")).map
        (fun e => quoteArg (escapeQuotes e.2))) ∧
    (∀ indent entriesText matchedText,
      docParamsArgs (pySplitlines entriesText) = [] →
      paramsReplacement indent entriesText matchedText = matchedText) := by
  refine ⟨docParamsArgs_eq, fun indent et m h => ?_⟩
  unfold paramsReplacement
  simp [h]

theorem c6_parameters_args_witness :
    paramsReplacement [] (strT "/// * `self`: s\n") (strT "X") = strT "X" :=
  c6_parameters_args.2 [] (strT "/// * `self`: s\n") (strT "X") (by decide)

/-- C3 counterexample: the Type Parameters correlator renders the
description `a "b" c` verbatim, and the verbatim payload differs from the
quote-escaped payload, so the double quote of the description is not
escaped in the generated quoted payload of that transform. -/
theorem c3_counterexample :
    mapDocToGenerics [strT "T"] [(strT "T", descWithQuote)] =
        [quoteArg descWithQuote] ∧
      quoteArg descWithQuote ≠ quoteArg (escapeQuotes descWithQuote) :=
  ⟨by decide, by decide⟩

/-- C3 (amended): in the Parameters transform, every rendered argument is
the quoted quote-escaped description of one parsed entry; the Type
Parameters transform embeds descriptions verbatim without escaping. -/
theorem c3_escaping :
    (∀ lines arg, arg ∈ docParamsArgs lines →
      ∃ n d, (n, d) ∈ parsedEntries false lines ∧
        arg = quoteArg (escapeQuotes d)) ∧
    (∀ g d, mapDocToGenerics [g] [(g, d)] = [quoteArg d]) := by
  constructor
  · intro lines arg h
    rw [docParamsArgs_eq] at h
    obtain ⟨e, he, hq⟩ := List.mem_map.mp h
    exact ⟨e.1, e.2, (List.mem_filter.mp he).1, hq.symm⟩
  · intro g d
    simp [mapDocToGenerics, finalArgsGo]

theorem c3_escaping_witness :
    ∃ n d, (n, d) ∈ parsedEntries false [strT "/// * `x`: hi"] ∧
      strT "\"hi\"" = quoteArg (escapeQuotes d) :=
  c3_escaping.1 [strT "/// * `x`: hi"] (strT "\"hi\"") (by decide)

theorem anyMatch_false_sub (tryM : List Char → Option (List Char × List Char))
    (endsLS : Bool) :
    ∀ (f : Nat) (s : List Char) (b : Bool),
      anyMatchScan tryM f s b = false → subScan tryM endsLS f s b = s := by
  intro f
  induction f with
  | zero => intro s b _; rfl
  | succ f ih =>
    intro s b h
    unfold anyMatchScan at h
    rw [Bool.or_eq_false_iff] at h
    obtain ⟨h1, h2⟩ := h
    unfold subScan
    have ht : (if b then tryM s else none) = none := by
      cases b with
      | false => rfl
      | true =>
        simp only [Bool.true_and] at h1
        rw [if_pos rfl]
        cases htm : tryM s with
        | none => rfl
        | some v => rw [htm] at h1; simp at h1
    rw [ht]
    cases s with
    | nil => rfl
    | cons c r =>
      have h3 : anyMatchScan tryM f r (decide (c = '\n')) = false := h2
      show c :: subScan tryM endsLS f r (decide (c = '\n')) = c :: r
      rw [ih r _ h3]

/-- C5: a buffer with no block matching a transform's block grammar is
returned byte-identical by that transform, the changed flag is false, and
hence the file is not rewritten (for each of the three transforms). -/
theorem c5_conservation :
    (∀ s, hasBlockParams s = false →
      applyDocParams s = s ∧ processDocParams s = (s, false)) ∧
    (∀ s, hasBlockTypeParams s = false →
      applyDocTypeParams s = s ∧ processDocTypeParams s = (s, false)) ∧
    (∀ s, hasBlockHmSig s = false →
      applyHmSignature s = s ∧ processHmSignature s = (s, false)) := by
  refine ⟨fun s h => ?_, fun s h => ?_, fun s h => ?_⟩
  · have he : applyDocParams s = s :=
      anyMatch_false_sub tryMatchParams true (s.length + 1) s true h
    exact ⟨he, by simp [processDocParams, he]⟩
  · have he : applyDocTypeParams s = s :=
      anyMatch_false_sub tryMatchTypeParams true (s.length + 1) s true h
    exact ⟨he, by simp [processDocTypeParams, he]⟩
  · have he : applyHmSignature s = s :=
      anyMatch_false_sub tryMatchHmSig false (s.length + 1) s true h
    exact ⟨he, by simp [processHmSignature, he]⟩

theorem c5_conservation_witness :
    applyDocParams c5Wit = c5Wit ∧ applyDocTypeParams c5Wit = c5Wit ∧
      applyHmSignature c5Wit = c5Wit :=
  ⟨(c5_conservation.1 c5Wit (by decide)).1,
   (c5_conservation.2.1 c5Wit (by decide)).1,
   (c5_conservation.2.2 c5Wit (by decide)).1⟩

theorem span_head_lt (afterFn : List Char)
    (h1 : (afterFn.dropWhile isPySpace).head? = some '<')
    (h2 : extractGenerics (genericsSpan afterFn) ≠ []) :
    afterFn.head? = some '<' := by
  cases afterFn with
  | nil => simp at h1
  | cons c r =>
    by_cases hc : isPySpace c = true
    · exfalso
      have hlt : ¬(c = '<') := fun h => by subst h; exact absurd hc (by decide)
      have hgt : ¬(c = '>') := fun h => by subst h; exact absurd hc (by decide)
      have hspan : genericsSpan (c :: r) = [c] := by
        unfold genericsSpan genericsSpanGo
        rw [if_neg hlt, if_neg hgt]
        rfl
      apply h2
      rw [hspan]
      unfold extractGenerics
      have hps : pyStrip [c] = [] := by simp [pyStrip, hc]
      rw [hps]
      rfl
    · rw [List.dropWhile_cons_of_neg hc] at h1
      simpa using h1

/-- C8: the Type Parameters replacement changes a matched block only when
the first non-blank non-doc non-attribute non-comment line of the
lookahead contains the word `fn`, the comment-stripped lookahead holds a
`fn` followed by a name, the character immediately after the function name
is an opening angle bracket, and the extracted generic list is non-empty;
whenever any of these fails the original block text is returned. -/
theorem c8_classification (indent entriesText matchedText rest : List Char)
    (hne : typeParamsReplacement indent entriesText matchedText rest ≠ matchedText) :
    hasFnWord (nextItemLine (pySplitlines (rest.take 5000))) = true ∧
    ∃ fnName afterFn,
      searchFnName (stripComments (rest.take 5000)) = some (fnName, afterFn) ∧
      afterFn.head? = some '<' ∧
      extractGenerics (genericsSpan afterFn) ≠ [] := by
  unfold typeParamsReplacement at hne
  split at hne
  · exact absurd rfl hne
  · rename_i hfn
    split at hne
    · exact absurd rfl hne
    · rename_i fst afterFn heq
      split at hne
      · exact absurd rfl hne
      · rename_i hemp
        have hfn2 : hasFnWord (nextItemLine (pySplitlines (rest.take 5000))) = true := by
          simpa using hfn
        have hemp2 : ¬ genericNamesFrom afterFn = [] := by
          intro hg
          exact hemp (by rw [hg]; rfl)
        have hlt : (afterFn.dropWhile isPySpace).head? = some '<' := by
          by_contra hc
          exact hemp2 (by unfold genericNamesFrom; rw [if_neg hc])
        have hext : extractGenerics (genericsSpan afterFn) ≠ [] := by
          intro hg
          apply hemp2
          unfold genericNamesFrom
          rw [if_pos hlt, hg]
        exact ⟨hfn2, fst, afterFn, heq, span_head_lt afterFn hlt hext, hext⟩

theorem c8_classification_witness :
    hasFnWord (nextItemLine (pySplitlines ((strT "fn f<T>(x: T) \x7b\x7d\n").take 5000))) = true ∧
    ∃ fnName afterFn,
      searchFnName (stripComments ((strT "fn f<T>(x: T) \x7b\x7d\n").take 5000)) =
          some (fnName, afterFn) ∧
        afterFn.head? = some '<' ∧
        extractGenerics (genericsSpan afterFn) ≠ [] :=
  c8_classification [] (strT "/// * `T`: d\n") (strT "X")
    (strT "fn f<T>(x: T) \x7b\x7d\n") (by decide)

/-- C9: the Type Signature replacement rewrites a matched block only when
the comment-stripped lookahead contains a word-bounded `fn` and the
single-depth-counter scan after it (over parentheses, square brackets and
braces) finds an opening brace at depth zero before any depth-zero
semicolon; a depth-zero semicolon first, no brace found, or no `fn` all
leave the block text unchanged. -/
theorem c9_body_detection (indent sig matchedText rest : List Char)
    (hne : hmReplacement indent sig matchedText rest ≠ matchedText) :
    ∃ afterFn,
      searchFnWordRemAux none (stripComments (rest.take 5000)) = some afterFn ∧
      bodyScanGo 0 afterFn = .foundBody := by
  unfold hmReplacement at hne
  split at hne
  · exact absurd rfl hne
  · rename_i tr htr
    split at hne
    · exact absurd rfl hne
    · rename_i afterFn hf
      split at hne
      · rename_i hb
        exact ⟨afterFn, hf, hb⟩
      · exact absurd rfl hne

theorem c9_body_detection_witness :
    ∃ afterFn,
      searchFnWordRemAux none (stripComments ((strT "fn foo() \x7b\x7d\n").take 5000)) =
          some afterFn ∧
        bodyScanGo 0 afterFn = .foundBody :=
  c9_body_detection [] (strT "a. Monad m => m a") (strT "X")
    (strT "fn foo() \x7b\x7d\n") (by decide)

/-- C1: evaluation of the Type Parameters transform at the failing input:
the first application rewrites only the second block (yielding `c1Once`),
the second application also rewrites the first block (yielding `c1Twice`),
so `T(T(B)) ≠ T(B)` and the second application reports a change — the
documented idempotence guarantee fails on this buffer. -/
theorem c1_idempotence_bug :
    applyDocTypeParams c1Input = c1Once ∧
    applyDocTypeParams c1Once = c1Twice ∧
    applyDocTypeParams (applyDocTypeParams c1Input) ≠ applyDocTypeParams c1Input ∧
    (processDocTypeParams c1Once).2 = true :=
  ⟨by decide, by decide, by decide, by decide⟩

/-! ## The migration pass: supporting lemmas -/

theorem prefix_of_append_left (p Y Z : List Char) (h : p <+: Y ++ Z)
    (hl : p.length ≤ Y.length) : p <+: Y := by
  obtain ⟨t, ht⟩ := h
  have h1 : p = (Y ++ Z).take p.length := by
    rw [← ht, List.take_append_eq_append_take]
    simp
  rw [h1, List.take_append_eq_append_take]
  rw [show p.length - Y.length = 0 from by omega]
  simp [List.take_prefix]

theorem prefix_of_append_split (p Y Z : List Char) (h : p <+: Y ++ Z)
    (hl : Y.length ≤ p.length) : Y = p.take Y.length ∧ p.drop Y.length <+: Z := by
  obtain ⟨t, ht⟩ := h
  constructor
  · have h1 : Y = (Y ++ Z).take Y.length := (List.take_left Y Z).symm
    rw [h1, ← ht, List.take_append_eq_append_take]
    rw [show Y.length - p.length = 0 from by omega]
    simp
  · have h2 : Z = (Y ++ Z).drop Y.length := (List.drop_left Y Z).symm
    rw [h2, ← ht, List.drop_append_eq_append_drop]
    rw [show Y.length - p.length = 0 from by omega]
    exact ⟨t.drop 0, rfl⟩

theorem tryCloseHm_cons (c : Char) (r : List Char) :
    tryCloseHm (c :: r) =
      if c = ')' then (if r.head? = some ']' then some r.tail else none)
      else tryCloseHm r := by
  by_cases hc : c = ')'
  · subst hc
    rw [if_pos rfl]
    cases r with
    | nil => rfl
    | cons d r2 =>
      by_cases hd : d = ']'
      · subst hd; rfl
      · rw [if_neg (by simpa using hd)]
        show (match (d :: r2 : List Char) with
              | ']' :: r2 => some r2
              | _ => none) = none
        rw [show (match (d :: r2 : List Char) with
              | ']' :: r2 => some r2
              | _ => none) = if d = ']' then some r2 else none from by
          by_cases h : d = ']'
          · subst h; simp
          · rw [if_neg h]
            rcases r2 with _ | ⟨e, r3⟩ <;> simp [h]]
        rw [if_neg hd]
  · rw [if_neg hc]
    rw [tryCloseHm.eq_def]
    split
    · rename_i heq; exact absurd heq (by simp)
    · rename_i r3 heq
      exfalso
      exact hc (List.cons.injEq _ _ _ _ ▸ heq).1
    · rename_i h1 h2
      injection h2 with hh1 hh2
      rw [hh2]

theorem tryCloseHm_append (a : List Char) (ha : ∀ c ∈ a, ¬ c = ')')
    (b : List Char) : tryCloseHm (a ++ b) = tryCloseHm b := by
  induction a with
  | nil => rfl
  | cons c a2 ih =>
    rw [List.cons_append, tryCloseHm_cons,
      if_neg (ha c (List.mem_cons_self c a2))]
    exact ih (fun d hd => ha d (List.mem_cons_of_mem c hd))

theorem tryCloseHm_length : ∀ (u r : List Char), tryCloseHm u = some r →
    r.length < u.length := by
  intro u
  induction u with
  | nil => intro r h; exact absurd h (by simp [tryCloseHm])
  | cons c u2 ih =>
    intro r h
    rw [tryCloseHm_cons] at h
    by_cases hc : c = ')'
    · rw [if_pos hc] at h
      by_cases hh : u2.head? = some ']'
      · rw [if_pos hh] at h
        injection h with h2
        rw [← h2]
        cases u2 with
        | nil => simp at hh
        | cons d u3 => simp only [List.tail_cons, List.length_cons]; omega
      · rw [if_neg hh] at h; exact absurd h (by simp)
    · rw [if_neg hc] at h
      have := ih r h
      simp only [List.length_cons]
      omega

theorem headMatchHm_length (s r : List Char) (h : headMatchHm s = some r) :
    r.length < s.length := by
  unfold headMatchHm at h
  by_cases hp : hmLit.isPrefixOf s = true
  · rw [if_pos hp] at h
    have h1 := tryCloseHm_length (s.drop hmLit.length) r h
    rw [List.length_drop] at h1
    omega
  · rw [if_neg hp] at h; exact absurd h (by simp)

theorem migrateAux_succ (f : Nat) (s : List Char) :
    migrateAux (f + 1) s =
      match headMatchHm s with
      | some r => hmRepl ++ migrateAux f r
      | none => match s with | [] => [] | c :: rr => c :: migrateAux f rr := rfl

theorem migrateAux_fuel : ∀ (f1 f2 : Nat) (s : List Char),
    s.length < f1 → s.length < f2 → migrateAux f1 s = migrateAux f2 s := by
  intro f1
  induction f1 with
  | zero => intro f2 s h1 h2; omega
  | succ f1 ih =>
    intro f2 s h1 h2
    cases f2 with
    | zero => omega
    | succ f2 =>
      rw [migrateAux_succ, migrateAux_succ]
      cases hm : headMatchHm s with
      | some r =>
        have hl := headMatchHm_length s r hm
        exact congrArg (hmRepl ++ ·) (ih f2 r (by omega) (by omega))
      | none =>
        cases s with
        | nil => rfl
        | cons c rr =>
          simp only [List.length_cons] at h1 h2
          exact congrArg (c :: ·) (ih f2 rr (by omega) (by omega))

theorem migrate_step_some (s r : List Char) (h : headMatchHm s = some r) :
    migrateHmSig s = hmRepl ++ migrateHmSig r := by
  have hl := headMatchHm_length s r h
  unfold migrateHmSig
  rw [migrateAux_succ, h]
  exact congrArg (hmRepl ++ ·) (migrateAux_fuel s.length (r.length + 1) r hl (by omega))

theorem migrate_step_none (c : Char) (rr : List Char)
    (h : headMatchHm (c :: rr) = none) :
    migrateHmSig (c :: rr) = c :: migrateHmSig rr := by
  unfold migrateHmSig
  rw [migrateAux_succ, h]
  exact congrArg (c :: ·)
    (migrateAux_fuel (c :: rr).length (rr.length + 1) rr (by simp) (by omega))

theorem hmLit_head (c : Char) (x : List Char)
    (h : hmLit.isPrefixOf (c :: x) = true) : c = '#' := by
  rw [show hmLit = '#' :: strT "[hm_signature(" from by decide] at h
  simp only [List.isPrefixOf] at h
  rw [Bool.and_eq_true] at h
  exact (beq_iff_eq.mp h.1).symm

theorem migrate_head (c : Char) (rr : List Char) :
    (migrateHmSig (c :: rr)).head? = some c := by
  cases hm : headMatchHm (c :: rr) with
  | some r =>
    rw [migrate_step_some _ _ hm]
    have hc : c = '#' := by
      unfold headMatchHm at hm
      by_cases hp : hmLit.isPrefixOf (c :: rr) = true
      · exact hmLit_head c rr hp
      · rw [if_neg hp] at hm; exact absurd hm (by simp)
    subst hc
    rw [show hmRepl = '#' :: strT "[hm_signature]" from by decide]
    rfl
  | none => rw [migrate_step_none _ _ hm]; rfl

theorem migrate_head_eq (u : List Char) : (migrateHmSig u).head? = u.head? := by
  cases u with
  | nil => rfl
  | cons d u3 => rw [migrate_head d u3]; rfl

theorem tryClose_none_migrate : ∀ (u : List Char), tryCloseHm u = none →
    tryCloseHm (migrateHmSig u) = none := by
  intro u
  induction u with
  | nil => intro h; exact h
  | cons c u2 ih =>
    intro h
    have hm : headMatchHm (c :: u2) = none := by
      cases hmm : headMatchHm (c :: u2) with
      | none => rfl
      | some r =>
        exfalso
        unfold headMatchHm at hmm
        by_cases hp : hmLit.isPrefixOf (c :: u2) = true
        · rw [if_pos hp] at hmm
          have hw : hmLit ++ ((c :: u2).drop hmLit.length) = c :: u2 :=
            List.prefix_iff_eq_append.mp (List.isPrefixOf_iff_prefix.mp hp)
          have h2 : tryCloseHm (c :: u2) = some r := by
            rw [← hw, tryCloseHm_append hmLit (by decide) _]
            exact hmm
          rw [h] at h2
          exact absurd h2 (by simp)
        · rw [if_neg hp] at hmm; exact absurd hmm (by simp)
    rw [migrate_step_none _ _ hm]
    rw [tryCloseHm_cons] at h ⊢
    by_cases hc : c = ')'
    · rw [if_pos hc] at h ⊢
      have hh : ¬ u2.head? = some ']' := by
        intro hx; rw [if_pos hx] at h; exact absurd h (by simp)
      rw [if_neg (by rw [migrate_head_eq]; exact hh)]
    · rw [if_neg hc] at h ⊢
      exact ih h

theorem isPrefixOf_migrate (v : List Char) : ∀ (p : List Char),
    (∀ c ∈ p, ¬ c = '#') → p.isPrefixOf (migrateHmSig v) = true →
      p.isPrefixOf v = true := by
  induction v with
  | nil => intro p hp h; exact h
  | cons c rr ih =>
    intro p hp h
    cases hm : headMatchHm (c :: rr) with
    | some r =>
      rw [migrate_step_some _ _ hm] at h
      cases p with
      | nil => rfl
      | cons q p2 =>
        exfalso
        apply hp q (List.mem_cons_self q p2)
        rw [show hmRepl = '#' :: strT "[hm_signature]" from by decide,
          List.cons_append] at h
        simp only [List.isPrefixOf] at h
        rw [Bool.and_eq_true] at h
        exact beq_iff_eq.mp h.1
    | none =>
      rw [migrate_step_none _ _ hm] at h
      cases p with
      | nil => rfl
      | cons q p2 =>
        simp only [List.isPrefixOf] at h ⊢
        rw [Bool.and_eq_true] at h ⊢
        exact ⟨h.1, ih p2 (fun d hd => hp d (List.mem_cons_of_mem q hd)) h.2⟩

theorem migrate_append_hashfree : ∀ (q : List Char), (∀ c ∈ q, ¬ c = '#') →
    ∀ (w : List Char), migrateHmSig (q ++ w) = q ++ migrateHmSig w := by
  intro q
  induction q with
  | nil => intro _ w; rfl
  | cons c q2 ih =>
    intro hq w
    have hm : headMatchHm (c :: (q2 ++ w)) = none := by
      unfold headMatchHm
      rw [if_neg (fun hp => hq c (List.mem_cons_self c q2) (hmLit_head c _ hp))]
    rw [List.cons_append, migrate_step_none _ _ hm,
      ih (fun d hd => hq d (List.mem_cons_of_mem c hd)) w, List.cons_append]

theorem migrate_hmRepl_append (t : List Char) :
    migrateHmSig (hmRepl ++ t) = hmRepl ++ migrateHmSig t := by
  have h0 : ¬ hmLit.isPrefixOf (hmRepl ++ t) = true := by
    intro hp
    have hpre := List.isPrefixOf_iff_prefix.mp hp
    have h1 := prefix_of_append_left hmLit hmRepl t hpre (by decide)
    rw [← List.isPrefixOf_iff_prefix] at h1
    exact absurd h1 (by decide)
  have hm : headMatchHm (hmRepl ++ t) = none := by
    unfold headMatchHm; rw [if_neg h0]
  rw [show hmRepl = '#' :: strT "[hm_signature]" from by decide] at hm ⊢
  rw [List.cons_append] at hm ⊢
  rw [migrate_step_none _ _ hm]
  rw [migrate_append_hashfree (strT "[hm_signature]") (by decide) t,
    List.cons_append]

theorem headMatch_none_step (c : Char) (rr : List Char)
    (h : headMatchHm (c :: rr) = none) :
    headMatchHm (c :: migrateHmSig rr) = none := by
  by_cases hp : hmLit.isPrefixOf (c :: rr) = true
  · have hc : c = '#' := hmLit_head c rr hp
    subst hc
    unfold headMatchHm at h
    rw [if_pos hp] at h
    have hw : hmLit ++ (('#' :: rr).drop hmLit.length) = '#' :: rr :=
      List.prefix_iff_eq_append.mp (List.isPrefixOf_iff_prefix.mp hp)
    have hrr : rr = strT "[hm_signature(" ++ (('#' :: rr).drop hmLit.length) := by
      have h2 := congrArg List.tail hw
      rw [show hmLit = '#' :: strT "[hm_signature(" from by decide] at h2
      simpa using h2.symm
    rw [hrr, migrate_append_hashfree (strT "[hm_signature(") (by decide) _]
    unfold headMatchHm
    have hpre2 : hmLit.isPrefixOf
        ('#' :: (strT "[hm_signature(" ++
          migrateHmSig (('#' :: rr).drop hmLit.length))) = true := by
      rw [show hmLit = '#' :: strT "[hm_signature(" from by decide,
        ← List.cons_append]
      exact List.isPrefixOf_iff_prefix.mpr (List.prefix_append _ _)
    rw [if_pos hpre2]
    have hdrop : ('#' :: (strT "[hm_signature(" ++
        migrateHmSig (('#' :: rr).drop hmLit.length))).drop hmLit.length
        = migrateHmSig (('#' :: rr).drop hmLit.length) := by
      rw [show hmLit = '#' :: strT "[hm_signature(" from by decide,
        ← List.cons_append]
      exact List.drop_left _ _
    rw [hdrop]
    exact tryClose_none_migrate _ h
  · unfold headMatchHm
    rw [if_neg]
    intro hp2
    apply hp
    have hc : c = '#' := hmLit_head c _ hp2
    subst hc
    rw [show hmLit = '#' :: strT "[hm_signature(" from by decide] at hp2 ⊢
    simp only [List.isPrefixOf] at hp2 ⊢
    rw [Bool.and_eq_true] at hp2 ⊢
    exact ⟨hp2.1, isPrefixOf_migrate rr _ (by decide) hp2.2⟩

theorem migrate_idem_aux : ∀ (n : Nat) (s : List Char), s.length ≤ n →
    migrateHmSig (migrateHmSig s) = migrateHmSig s := by
  intro n
  induction n with
  | zero =>
    intro s h
    have hs : s = [] := by
      cases s with
      | nil => rfl
      | cons c r => simp at h
    subst hs; rfl
  | succ n ih =>
    intro s hlen
    cases hm : headMatchHm s with
    | some r =>
      rw [migrate_step_some s r hm, migrate_hmRepl_append,
        ih r (by have := headMatchHm_length s r hm; omega)]
    | none =>
      cases s with
      | nil => rfl
      | cons c rr =>
        rw [migrate_step_none c rr hm]
        rw [migrate_step_none c (migrateHmSig rr) (headMatch_none_step c rr hm)]
        rw [ih rr (by simp only [List.length_cons] at hlen; omega)]

/-- C10: the attribute-migration pass (a) is idempotent — applying it to
its own output returns an identical buffer, and the second application
reports no change; (b) leaves a buffer with no occurrence of the pattern
unchanged (every other character unchanged); (c) replaces an occurrence
`#[hm_signature(` + non-parenthesis characters + `)]` with the bare
`#[hm_signature]` and continues after it. -/
theorem c10_migration :
    (∀ s, migrateHmSig (migrateHmSig s) = migrateHmSig s ∧
      (processMigrate (migrateHmSig s)).2 = false) ∧
    (∀ s, noOccHm s = true → migrateHmSig s = s) ∧
    (∀ w t, (∀ c ∈ w, ¬ c = ')') →
      migrateHmSig (hmLit ++ (w ++ ')' :: ']' :: t)) =
        hmRepl ++ migrateHmSig t) := by
  refine ⟨fun s => ?_, fun s => ?_, fun w t hw => ?_⟩
  · have hi := migrate_idem_aux s.length s le_rfl
    refine ⟨hi, ?_⟩
    unfold processMigrate
    rw [if_pos hi]
  · induction s with
    | nil => intro _; rfl
    | cons c r ih =>
      intro h
      unfold noOccHm at h
      rw [Bool.and_eq_true] at h
      have hm : headMatchHm (c :: r) = none := by
        cases hmm : headMatchHm (c :: r) with
        | none => rfl
        | some v => rw [hmm] at h; simp at h
      rw [migrate_step_none c r hm, ih h.2]
  · have hm : headMatchHm (hmLit ++ (w ++ ')' :: ']' :: t)) = some t := by
      unfold headMatchHm
      rw [if_pos (List.isPrefixOf_iff_prefix.mpr (List.prefix_append _ _))]
      rw [List.drop_left]
      rw [tryCloseHm_append w hw]
      rfl
    exact migrate_step_some _ _ hm

theorem c10_migration_witness :
    migrateHmSig (migrateHmSig c10WitA) = migrateHmSig c10WitA ∧
      migrateHmSig c10WitB = c10WitB ∧
      migrateHmSig (hmLit ++ (strT "Functor" ++ ')' :: ']' :: strT " x")) =
        hmRepl ++ migrateHmSig (strT " x") :=
  ⟨(c10_migration.1 c10WitA).1, c10_migration.2.1 c10WitB (by decide),
   c10_migration.2.2 (strT "Functor") (strT " x") (by decide)⟩

/-! ## Import insertion: counting and placement lemmas -/

theorem countOcc_cons (p : List Char) (c : Char) (r : List Char) :
    countOcc p (c :: r) =
      (if p.isPrefixOf (c :: r) = true then 1 else 0) + countOcc p r := rfl

theorem containsSub_cons (p : List Char) (c : Char) (r : List Char) :
    containsSub p (c :: r) = (p.isPrefixOf (c :: r) || containsSub p r) := rfl

theorem countOcc_zero_of_not_contains (p : List Char) (hp : p ≠ []) :
    ∀ s, containsSub p s = false → countOcc p s = 0 := by
  intro s
  induction s with
  | nil =>
    intro _
    cases p with
    | nil => exact absurd rfl hp
    | cons q p2 => rfl
  | cons c r ih =>
    intro h
    rw [containsSub_cons, Bool.or_eq_false_iff] at h
    rw [countOcc_cons, if_neg (by simp [h.1]), ih h.2]

theorem countOcc_pos_of_contains (p : List Char) :
    ∀ s, containsSub p s = true → 1 ≤ countOcc p s := by
  intro s
  induction s with
  | nil =>
    intro h
    unfold containsSub at h
    unfold countOcc
    rw [if_pos h]
  | cons c r ih =>
    intro h
    rw [containsSub_cons, Bool.or_eq_true] at h
    rw [countOcc_cons]
    rcases h with h | h
    · rw [if_pos h]; omega
    · have := ih h; omega

theorem containsSub_append_right (p : List Char) :
    ∀ (A C : List Char), containsSub p (A ++ C) = false →
      containsSub p C = false := by
  intro A
  induction A with
  | nil => intro C h; exact h
  | cons a A2 ih =>
    intro C h
    rw [List.cons_append, containsSub_cons, Bool.or_eq_false_iff] at h
    exact ih C h.2

theorem count_nl_tail (p : List Char) (hp : p ≠ []) (hnl : '\n' ∉ p)
    (C : List Char) (hc : countOcc p C = 0) :
    countOcc p ('\n' :: C) = 0 := by
  rw [countOcc_cons, hc]
  have hpre : p.isPrefixOf ('\n' :: C) = false := by
    cases p with
    | nil => exact absurd rfl hp
    | cons ph pt =>
      have hph : ¬ ph = '\n' := fun h => hnl (h ▸ List.mem_cons_self ph pt)
      simp [List.isPrefixOf, hph]
  rw [if_neg (by simp [hpre])]

theorem count_suffix_drop (p : List Char) (hbf : BorderFree p)
    (hnl : '\n' ∉ p) (hp : p ≠ []) (C : List Char) (hc : countOcc p C = 0) :
    ∀ (k j : Nat), 0 < j → p.length - j ≤ k →
      countOcc p (p.drop j ++ '\n' :: C) = 0 := by
  intro k
  induction k with
  | zero =>
    intro j hj hk
    rw [List.drop_eq_nil_of_le (by omega), List.nil_append]
    exact count_nl_tail p hp hnl C hc
  | succ k ih =>
    intro j hj hk
    by_cases hjl : p.length ≤ j
    · rw [List.drop_eq_nil_of_le hjl, List.nil_append]
      exact count_nl_tail p hp hnl C hc
    · have hjl2 : j < p.length := by omega
      rw [List.drop_eq_getElem_cons hjl2, List.cons_append]
      rw [countOcc_cons]
      have hpre : p.isPrefixOf (p[j] :: (p.drop (j + 1) ++ '\n' :: C)) = false := by
        by_contra hx
        rw [Bool.not_eq_false] at hx
        have hpp := List.isPrefixOf_iff_prefix.mp hx
        rw [show p[j] :: (p.drop (j + 1) ++ '\n' :: C) =
            p.drop j ++ '\n' :: C from by
          rw [List.drop_eq_getElem_cons hjl2, List.cons_append]] at hpp
        have hsplit := prefix_of_append_split p (p.drop j) ('\n' :: C) hpp
          (by rw [List.length_drop]; omega)
        apply hbf j hjl2 hj
        have h1 := hsplit.1
        rw [List.length_drop] at h1
        exact h1.symm
      rw [if_neg (by simp [hpre])]
      have hrec := ih (j + 1) (by omega) (by omega)
      simpa using hrec

theorem countOcc_insert_one (p : List Char) (hp : p ≠ []) (hnl : '\n' ∉ p)
    (hbf : BorderFree p) :
    ∀ (A C : List Char), containsSub p (A ++ C) = false →
      countOcc p (A ++ ((p ++ ['\n']) ++ C)) = 1 := by
  intro A
  induction A with
  | nil =>
    intro C hAC
    simp only [List.nil_append]
    rw [show (p ++ ['\n']) ++ C = p ++ '\n' :: C from by simp]
    have hcC : countOcc p C = 0 :=
      countOcc_zero_of_not_contains p hp C (containsSub_append_right p [] C hAC)
    cases hpc : p with
    | nil => exact absurd hpc hp
    | cons ph pt =>
      rw [← hpc]
      rw [show p ++ '\n' :: C = ph :: (pt ++ '\n' :: C) from by rw [hpc]; rfl]
      rw [countOcc_cons]
      have hpre : p.isPrefixOf (ph :: (pt ++ '\n' :: C)) = true := by
        rw [show ph :: (pt ++ '\n' :: C) = p ++ '\n' :: C from by rw [hpc]; rfl]
        exact List.isPrefixOf_iff_prefix.mpr (List.prefix_append p _)
      rw [if_pos hpre]
      have htail : pt ++ '\n' :: C = p.drop 1 ++ '\n' :: C := by rw [hpc]; rfl
      rw [htail,
        count_suffix_drop p hbf hnl hp C hcC (p.length - 1) 1 (by omega) (by omega)]
  | cons a A2 ih =>
    intro C hAC
    have hsub : containsSub p (A2 ++ C) = false := by
      rw [List.cons_append, containsSub_cons, Bool.or_eq_false_iff] at hAC
      exact hAC.2
    have hnp : p.isPrefixOf ((a :: A2) ++ C) = false := by
      rw [List.cons_append, containsSub_cons, Bool.or_eq_false_iff] at hAC
      rw [List.cons_append]
      exact hAC.1
    rw [List.cons_append, countOcc_cons]
    have hpre : p.isPrefixOf (a :: (A2 ++ ((p ++ ['\n']) ++ C))) = false := by
      by_contra hx
      rw [Bool.not_eq_false] at hx
      have hpp := List.isPrefixOf_iff_prefix.mp hx
      rw [show a :: (A2 ++ ((p ++ ['\n']) ++ C)) =
          (a :: A2) ++ ((p ++ ['\n']) ++ C) from rfl] at hpp
      by_cases hl : p.length ≤ (a :: A2).length
      · have h1 := prefix_of_append_left p (a :: A2) _ hpp hl
        have h2 : p <+: (a :: A2) ++ C := h1.trans (List.prefix_append _ _)
        rw [← List.isPrefixOf_iff_prefix] at h2
        rw [h2] at hnp
        exact absurd hnp (by simp)
      · have hsplit := prefix_of_append_split p (a :: A2) _ hpp (by omega)
        have hq := hsplit.2
        rw [show (p ++ ['\n']) ++ C = p ++ '\n' :: C from by simp] at hq
        have hqlen : (p.drop (a :: A2).length).length ≤ p.length := by
          rw [List.length_drop]; omega
        have h3 := prefix_of_append_left _ p ('\n' :: C) hq hqlen
        obtain ⟨t2, ht2⟩ := h3
        have h4 : p.drop (a :: A2).length = p.take (p.length - (a :: A2).length) := by
          have h5 : p.drop (a :: A2).length =
              (p.drop (a :: A2).length ++ t2).take (p.drop (a :: A2).length).length :=
            (List.take_left _ _).symm
          rw [ht2] at h5
          rw [h5, List.length_drop]
        exact hbf (a :: A2).length (by omega) (by simp) h4.symm
    rw [if_neg (by rw [hpre]; simp), ih C hsub]

theorem pySplitKeepGo_join (s : List Char) : ∀ (cur : List Char),
    (pySplitKeepGo cur s).flatten = cur.reverse ++ s := by
  induction s with
  | nil => intro cur; simp [pySplitKeepGo]
  | cons c r ih =>
    intro cur
    simp only [pySplitKeepGo]
    by_cases hc : c = '\n'
    · rw [if_pos hc]
      cases r with
      | nil => simp
      | cons d r2 =>
        rw [show (match (d :: r2 : List Char) with
            | [] => ([] : List (List Char))
            | _ :: _ => pySplitKeepGo [] (d :: r2)) =
          pySplitKeepGo [] (d :: r2) from rfl]
        rw [List.flatten_cons, ih []]
        simp
    · rw [if_neg hc, ih (c :: cur)]
      simp

theorem pySplitKeep_join (s : List Char) : (pySplitKeep s).flatten = s := by
  cases s with
  | nil => rfl
  | cons c r =>
    rw [show pySplitKeep (c :: r) = pySplitKeepGo [] (c :: r) from rfl]
    rw [pySplitKeepGo_join (c :: r) []]
    rfl

theorem flatten_take_drop (L : List (List Char)) (k : Nat) :
    (L.take k).flatten ++ (L.drop k).flatten = L.flatten := by
  rw [← List.flatten_append, List.take_append_drop]

theorem skipPreamble_cons (l0 : List Char) (rest : List (List Char)) :
    skipPreamble (l0 :: rest) =
      if isPreambleLine l0 = true then skipPreamble rest + 1 else 0 := rfl

theorem skipPreamble_take (lines : List (List Char)) :
    ∀ l ∈ lines.take (skipPreamble lines), isPreambleLine l = true := by
  induction lines with
  | nil => simp
  | cons l0 rest ih =>
    by_cases h : isPreambleLine l0 = true
    · rw [skipPreamble_cons, if_pos h, List.take_succ_cons]
      intro l hl
      rcases List.mem_cons.mp hl with h1 | h1
      · rw [h1]; exact h
      · exact ih l h1
    · rw [skipPreamble_cons, if_neg h]
      simp

theorem skipPreamble_drop (lines : List (List Char)) :
    ∀ l, (lines.drop (skipPreamble lines)).head? = some l →
      isPreambleLine l = false := by
  induction lines with
  | nil => simp
  | cons l0 rest ih =>
    by_cases h : isPreambleLine l0 = true
    · rw [skipPreamble_cons, if_pos h, List.drop_succ_cons]
      exact ih
    · rw [skipPreamble_cons, if_neg h]
      intro l hl
      simp only [List.drop_zero, List.head?_cons, Option.some.injEq] at hl
      rw [← hl]
      exact eq_false_of_ne_true h

theorem pyStrip_keeps_two (a b : Char) (ha : isPySpace a = false)
    (hb : isPySpace b = false) (x : List Char) :
    ∃ y, pyStrip (a :: b :: x) = a :: b :: y := by
  unfold pyStrip
  rw [List.dropWhile_cons_of_neg (by simp [ha])]
  rw [show (a :: b :: x).reverse = x.reverse ++ [b, a] from by simp]
  rw [List.dropWhile_append]
  by_cases hxe : (x.reverse.dropWhile isPySpace).isEmpty = true
  · rw [if_pos hxe]
    rw [show List.dropWhile isPySpace [b, a] = [b, a] from by
      rw [List.dropWhile_cons_of_neg (by simp [hb])]]
    exact ⟨[], by simp⟩
  · rw [if_neg hxe]
    exact ⟨(x.reverse.dropWhile isPySpace).reverse, by simp⟩

theorem preamble_of_shebang (l0 : List Char)
    (h : (strT "#!").isPrefixOf l0 = true) : isPreambleLine l0 = true := by
  obtain ⟨t, ht⟩ := List.isPrefixOf_iff_prefix.mp h
  have hl0 : l0 = '#' :: '!' :: t := by rw [← ht]; rfl
  subst hl0
  obtain ⟨y, hy⟩ := pyStrip_keeps_two '#' '!' (by decide) (by decide) t
  unfold isPreambleLine
  rw [hy]
  have h2 : (strT "#!").isPrefixOf ('#' :: '!' :: y) = true := by
    rw [show strT "#!" = ['#', '!'] from by decide]
    simp [List.isPrefixOf]
  simp [h2]

theorem importInsertIdx_cons (l0 : List Char) (rest : List (List Char)) :
    importInsertIdx (l0 :: rest) =
      if (strT "#!").isPrefixOf l0 = true then 1 + skipPreamble rest
      else skipPreamble (l0 :: rest) := rfl

theorem importInsertIdx_eq (lines : List (List Char)) :
    importInsertIdx lines = skipPreamble lines := by
  cases lines with
  | nil => rfl
  | cons l0 rest =>
    rw [importInsertIdx_cons]
    by_cases h : (strT "#!").isPrefixOf l0 = true
    · rw [if_pos h, skipPreamble_cons, if_pos (preamble_of_shebang l0 h)]
      omega
    · rw [if_neg h]

theorem ensureImport_contains (imp s : List Char)
    (h : containsSub imp s = true) : ensureImport imp s = s := by
  unfold ensureImport; rw [if_pos h]

theorem ensureImport_count_one (imp : List Char) (hp : imp ≠ [])
    (hnl : '\n' ∉ imp) (hbf : BorderFree imp) (s : List Char)
    (h : containsSub imp s = false) :
    countOcc imp (ensureImport imp s) = 1 := by
  unfold ensureImport
  rw [if_neg (by simp [h])]
  have hAC : ((pySplitKeep s).take (importInsertIdx (pySplitKeep s))).flatten ++
      ((pySplitKeep s).drop (importInsertIdx (pySplitKeep s))).flatten = s := by
    rw [flatten_take_drop, pySplitKeep_join]
  have hc2 : containsSub imp
      (((pySplitKeep s).take (importInsertIdx (pySplitKeep s))).flatten ++
        ((pySplitKeep s).drop (importInsertIdx (pySplitKeep s))).flatten) = false := by
    rw [hAC]; exact h
  have := countOcc_insert_one imp hp hnl hbf
    (((pySplitKeep s).take (importInsertIdx (pySplitKeep s))).flatten)
    (((pySplitKeep s).drop (importInsertIdx (pySplitKeep s))).flatten) hc2
  rw [← this]
  congr 1
  rw [List.append_assoc]

theorem ensureImport_ge_one (imp : List Char) (hp : imp ≠ [])
    (hnl : '\n' ∉ imp) (hbf : BorderFree imp) (s : List Char) :
    1 ≤ countOcc imp (ensureImport imp s) := by
  cases hc : containsSub imp s with
  | true =>
    rw [ensureImport_contains imp s hc]
    exact countOcc_pos_of_contains imp s hc
  | false =>
    rw [ensureImport_count_one imp hp hnl hbf s hc]

theorem ensureImport_placement (imp s : List Char)
    (h : containsSub imp s = false) :
    InsertedAtPreamble imp s (ensureImport imp s) := by
  refine ⟨(pySplitKeep s).take (importInsertIdx (pySplitKeep s)),
    (pySplitKeep s).drop (importInsertIdx (pySplitKeep s)),
    (List.take_append_drop _ _).symm, ?_, ?_, ?_⟩
  · unfold ensureImport
    rw [if_neg (by simp [h])]
  · rw [importInsertIdx_eq]
    exact skipPreamble_take (pySplitKeep s)
  · rw [importInsertIdx_eq]
    exact skipPreamble_drop (pySplitKeep s)

/-- C4 (amended): when a transform rewrote at least one block, the
resulting buffer contains that transform's import line at least once, and
exactly once when the line was absent from the rewritten buffer before the
insertion step, in which case it is inserted at the first line that is
neither a shebang nor a file-level `//!`/`#!` comment nor blank; this holds
for each of the three transforms, regardless of how many blocks were
rewritten. -/
theorem c4_import_singleton :
    (∀ B, applyDocParams B ≠ B →
      (1 ≤ countOcc impParams (processDocParams B).1) ∧
      (containsSub impParams (applyDocParams B) = false →
        countOcc impParams (processDocParams B).1 = 1 ∧
        InsertedAtPreamble impParams (applyDocParams B) (processDocParams B).1)) ∧
    (∀ B, applyDocTypeParams B ≠ B →
      (1 ≤ countOcc impTypeParams (processDocTypeParams B).1) ∧
      (containsSub impTypeParams (applyDocTypeParams B) = false →
        countOcc impTypeParams (processDocTypeParams B).1 = 1 ∧
        InsertedAtPreamble impTypeParams (applyDocTypeParams B)
          (processDocTypeParams B).1)) ∧
    (∀ B, applyHmSignature B ≠ B →
      (1 ≤ countOcc impHmSig (processHmSignature B).1) ∧
      (containsSub impHmSig (applyHmSignature B) = false →
        countOcc impHmSig (processHmSignature B).1 = 1 ∧
        InsertedAtPreamble impHmSig (applyHmSignature B)
          (processHmSignature B).1)) := by
  refine ⟨fun B hB => ?_, fun B hB => ?_, fun B hB => ?_⟩
  · have hproc : (processDocParams B).1 = ensureImport impParams (applyDocParams B) := by
      unfold processDocParams
      rw [if_neg hB]
    rw [hproc]
    exact ⟨ensureImport_ge_one impParams (by decide) (by decide)
        (by unfold BorderFree; decide) _,
      fun hc => ⟨ensureImport_count_one impParams (by decide) (by decide)
        (by unfold BorderFree; decide) _ hc, ensureImport_placement impParams _ hc⟩⟩
  · have hproc : (processDocTypeParams B).1 =
        ensureImport impTypeParams (applyDocTypeParams B) := by
      unfold processDocTypeParams
      rw [if_neg hB]
    rw [hproc]
    exact ⟨ensureImport_ge_one impTypeParams (by decide) (by decide)
        (by unfold BorderFree; decide) _,
      fun hc => ⟨ensureImport_count_one impTypeParams (by decide) (by decide)
        (by unfold BorderFree; decide) _ hc, ensureImport_placement impTypeParams _ hc⟩⟩
  · have hproc : (processHmSignature B).1 =
        ensureImport impHmSig (applyHmSignature B) := by
      unfold processHmSignature
      rw [if_neg hB]
    rw [hproc]
    exact ⟨ensureImport_ge_one impHmSig (by decide) (by decide)
        (by unfold BorderFree; decide) _,
      fun hc => ⟨ensureImport_count_one impHmSig (by decide) (by decide)
        (by unfold BorderFree; decide) _ hc, ensureImport_placement impHmSig _ hc⟩⟩

/-- C4 counterexample: on a buffer already holding the import line twice,
a rewrite leaves both copies, so the import line does not appear exactly
once even though a block was rewritten. -/
theorem c4_counterexample :
    applyDocParams c4Cex ≠ c4Cex ∧
      countOcc impParams (processDocParams c4Cex).1 = 2 :=
  ⟨by decide, by decide⟩

theorem c4_import_singleton_witness :
    (1 ≤ countOcc impParams (processDocParams c4WitP).1) ∧
    countOcc impParams (processDocParams c4WitP).1 = 1 ∧
    (1 ≤ countOcc impTypeParams (processDocTypeParams c4WitT).1) ∧
    countOcc impTypeParams (processDocTypeParams c4WitT).1 = 1 ∧
    (1 ≤ countOcc impHmSig (processHmSignature c4WitH).1) ∧
    countOcc impHmSig (processHmSignature c4WitH).1 = 1 := by
  have h1 := c4_import_singleton.1 c4WitP (by decide)
  have h2 := c4_import_singleton.2.1 c4WitT (by decide)
  have h3 := c4_import_singleton.2.2 c4WitH (by decide)
  exact ⟨h1.1, (h1.2 (by decide)).1, h2.1, (h2.2 (by decide)).1,
    h3.1, (h3.2 (by decide)).1⟩

end DocMacros
